import Mathlib

/-!
Shallow embedding of the osu! replay parser (`src/parser.rs`, `src/replay.rs`,
`src/errors.rs`).

Bytes are modelled as `Nat` (with `< 256` hypotheses where it matters), byte
buffers as `List Nat`, machine integers as `Nat`/`Int` with explicit `% 2^w`
where overflow matters.  Rust strings (`&str` / `String`) are valid-UTF-8 byte
sequences; the header fields of type `String` are therefore modelled as the
byte list the parser extracted, and the decompressed action text (whose
char-level structure matters for splitting) as `List Char` obtained by UTF-8
decoding.

A nom parser `fn p(input: &[u8]) -> IResult<&[u8], O, VerboseError<..>>`
becomes `p : List Nat → Except ParseErr (List Nat × O)`: `Ok((rest, v))`
becomes `.ok (rest, v)` and `Err(..)` becomes `.error k` where `k` is the
distinguishing error kind (the diagnostic context-label trace carried by
`VerboseError` has no effect on control flow and is not modelled).
-/

/-- Error kinds a header-decoding (nom) failure can carry, named after the
spec's closed taxonomy.  `unexpectedEndOfInput` is nom's `ErrorKind::Eof`
(raised by `take`, the fixed-width number parsers, and the hand-written
`uleb128`); `invalidEnumValue` is the `"Invalid Game Mode"` context error in
`game_mode`; `invalidUtf8` is the `"Error converting bytes to UTF-8"` context
error in `utf8_string`. -/
inductive ParseErr where
  | unexpectedEndOfInput
  | invalidEnumValue
  | invalidUtf8
  deriving DecidableEq, Repr

/-- Result of a nom-style parser: the remaining input together with the
decoded value, or an error kind. -/
abbrev ParseResult (O : Type) := Except ParseErr (List Nat × O)

/-- `nom::number::complete::le_u8` (imported as `byte` in `parser.rs`):
one byte, fails with Eof on empty input. -/
def byte (input : List Nat) : ParseResult Nat :=
  match input with
  | [] => .error .unexpectedEndOfInput
  | b :: rest => .ok (rest, b)

/-- `nom::number::complete::le_u16` (imported as `short`): two bytes,
little-endian. -/
def short (input : List Nat) : ParseResult Nat :=
  match input with
  | b0 :: b1 :: rest => .ok (rest, b0 + b1 * 2 ^ 8)
  | _ => .error .unexpectedEndOfInput

/-- `nom::number::complete::le_u32` (imported as `integer`): four bytes,
little-endian. -/
def integer (input : List Nat) : ParseResult Nat :=
  match input with
  | b0 :: b1 :: b2 :: b3 :: rest =>
      .ok (rest, b0 + b1 * 2 ^ 8 + b2 * 2 ^ 16 + b3 * 2 ^ 24)
  | _ => .error .unexpectedEndOfInput

/-- `nom::number::complete::le_i64`: eight bytes, little-endian,
reinterpreted as a signed (two's-complement) 64-bit integer. -/
def le_i64 (input : List Nat) : ParseResult Int :=
  match input with
  | b0 :: b1 :: b2 :: b3 :: b4 :: b5 :: b6 :: b7 :: rest =>
      let u : Nat := b0 + b1 * 2 ^ 8 + b2 * 2 ^ 16 + b3 * 2 ^ 24 + b4 * 2 ^ 32
        + b5 * 2 ^ 40 + b6 * 2 ^ 48 + b7 * 2 ^ 56
      .ok (rest, if u < 2 ^ 63 then (u : Int) else (u : Int) - 2 ^ 64)
  | _ => .error .unexpectedEndOfInput

/-- `nom::bytes::complete::take(count)`: exactly `count` bytes, fails with
Eof when fewer remain. -/
def take (count : Nat) (input : List Nat) : ParseResult (List Nat) :=
  if input.length < count then .error .unexpectedEndOfInput
  else .ok (input.drop count, input.take count)

/-- Loop body of `uleb128` in `parser.rs`: iterates over the input bytes
carrying `result` and `shift` (`result |= (byte & 0x7F) << shift; shift += 7`,
`result` being a Rust `u32`, hence the `% 2^32` truncation of the shifted
contribution), returning at the first byte whose `0x80` bit is clear and
failing with Eof when the input runs out first. -/
def uleb128Go : List Nat → Nat → Nat → ParseResult Nat
  | [], _, _ => .error .unexpectedEndOfInput
  | b :: rest, result, shift =>
      let result := result ||| ((b &&& 0x7F) <<< shift % 2 ^ 32)
      if b &&& 0x80 = 0 then .ok (rest, result)
      else uleb128Go rest result (shift + 7)

/-- `uleb128` in `parser.rs`: ULEB128 decoder for an unsigned 32-bit
integer. -/
def uleb128 (input : List Nat) : ParseResult Nat :=
  uleb128Go input 0 0

/-- Whether `c` is a valid UTF-8 continuation byte (`0x80..=0xBF`). -/
def utf8Cont (c : Nat) : Bool := 0x80 ≤ c && c ≤ 0xBF

/-- UTF-8 decoder, the validation algorithm implemented by Rust's
`std::str::from_utf8` / `String::from_utf8` (rejecting overlong forms,
surrogate code points and code points above `U+10FFFF`), additionally
producing the decoded characters (a Rust `&str` is exactly its underlying
byte slice, so the header-string parsers return the validated bytes; the
action-stream decoder needs the characters themselves). -/
def utf8Decode : List Nat → Option (List Char)
  | [] => some []
  | b :: rest =>
    if b < 0x80 then (utf8Decode rest).map (Char.ofNat b :: ·)
    else if b < 0xC2 then none
    else if b < 0xE0 then
      match rest with
      | c1 :: r =>
        if utf8Cont c1 then
          (utf8Decode r).map (Char.ofNat ((b - 0xC0) * 2 ^ 6 + (c1 - 0x80)) :: ·)
        else none
      | _ => none
    else if b < 0xF0 then
      match rest with
      | c1 :: c2 :: r =>
        if (if b = 0xE0 then 0xA0 ≤ c1 && c1 ≤ 0xBF
            else if b = 0xED then 0x80 ≤ c1 && c1 ≤ 0x9F
            else utf8Cont c1) && utf8Cont c2 then
          (utf8Decode r).map (Char.ofNat ((b - 0xE0) * 2 ^ 12
            + (c1 - 0x80) * 2 ^ 6 + (c2 - 0x80)) :: ·)
        else none
      | _ => none
    else if b < 0xF5 then
      match rest with
      | c1 :: c2 :: c3 :: r =>
        if (if b = 0xF0 then 0x90 ≤ c1 && c1 ≤ 0xBF
            else if b = 0xF4 then 0x80 ≤ c1 && c1 ≤ 0x8F
            else utf8Cont c1) && utf8Cont c2 && utf8Cont c3 then
          (utf8Decode r).map (Char.ofNat ((b - 0xF0) * 2 ^ 18
            + (c1 - 0x80) * 2 ^ 12 + (c2 - 0x80) * 2 ^ 6 + (c3 - 0x80)) :: ·)
        else none
      | _ => none
    else none

/-- Validity of a byte sequence as UTF-8 (what `std::str::from_utf8`
checks). -/
def isValidUtf8 (l : List Nat) : Bool := (utf8Decode l).isSome

/-- `utf8_string` in `parser.rs`: validates the whole remaining input as
UTF-8 and returns it (as a `&str`, i.e. the same bytes) with an empty
remainder; fails with the `"Error converting bytes to UTF-8"` context
error otherwise. -/
def utf8_string (input : List Nat) : ParseResult (List Nat) :=
  if isValidUtf8 input then .ok ([], input) else .error .invalidUtf8

/-- `osr_string` in `parser.rs`: one presence byte; `0x00` yields the empty
string at once, anything else is followed by a ULEB128 length, that many
bytes, and UTF-8 validation of those bytes. -/
def osr_string (input : List Nat) : Except ParseErr (List Nat × List Nat) := do
  let (input, is_present) ← byte input
  if is_present = 0x00 then
    return (input, [])
  else
    let (input, length) ← uleb128 input
    let (input, value) ← take length input
    let (_, string) ← utf8_string value
    return (input, string)

/-- `GameMode` enum in `replay.rs`. -/
inductive GameMode where
  | Osu
  | Taiko
  | CatchTheBeat
  | Mania
  deriving DecidableEq, Repr

/-- `game_mode` in `parser.rs`: one byte, mapped to the four variants;
any other value fails with the `"Invalid Game Mode"` context error. -/
def game_mode (input : List Nat) : Except ParseErr (List Nat × GameMode) := do
  let (input, game_mode_int) ← byte input
  match game_mode_int with
  | 0 => return (input, GameMode.Osu)
  | 1 => return (input, GameMode.Taiko)
  | 2 => return (input, GameMode.CatchTheBeat)
  | 3 => return (input, GameMode.Mania)
  | _ => .error .invalidEnumValue

/-- `ReplayDataError` in `errors.rs` (the variants relevant to
`replay.rs`; the `NomParsingError` wrapper of header parsing is modelled by
`ParseErr` above, and the `LzmaError` payload is not modelled). -/
inductive ReplayDataError where
  | missingValueError
  | invalidValueError
  | invalidUtfError
  | lzmaError
  deriving DecidableEq, Repr

/-- `GameMode::try_from::<u8>` in `replay.rs`. -/
def GameMode.tryFrom (value : Nat) : Except ReplayDataError GameMode :=
  match value with
  | 0 => .ok GameMode.Osu
  | 1 => .ok GameMode.Taiko
  | 2 => .ok GameMode.CatchTheBeat
  | 3 => .ok GameMode.Mania
  | _ => .error ReplayDataError.invalidValueError

/-- The `Replay` struct in `replay.rs`.  `String` fields hold the UTF-8
bytes the parser validated; `time_stamp` and `online_score_id` are `i64`,
the unsigned fields carry their `u8`/`u16`/`u32` values as `Nat`. -/
structure Replay where
  game_mode : GameMode
  version : Nat
  beatmap_md5 : List Nat
  player_name : List Nat
  replay_md5 : List Nat
  n300 : Nat
  n100 : Nat
  n50 : Nat
  n_geki : Nat
  n_katu : Nat
  n_miss : Nat
  total_score : Nat
  greatest_combo : Nat
  perfect : Nat
  mods : Nat
  life_bar : List Nat
  time_stamp : Int
  compressed_data : List Nat
  online_score_id : Int
  deriving DecidableEq, Repr

/-- The header pipeline function of `parser.rs` (named with an `r`/`p`
word break there): the strictly sequential header
pipeline.  Each `context(..)` wrapper only labels the propagated error and
is dropped here. -/
def replayParser (input : List Nat) : Except ParseErr (List Nat × Replay) := do
  let (input, game_mode) ← game_mode input
  let (input, version) ← integer input
  let (input, beatmap_md5) ← osr_string input
  let (input, player_name) ← osr_string input
  let (input, replay_md5) ← osr_string input
  let (input, n300) ← short input
  let (input, n100) ← short input
  let (input, n50) ← short input
  let (input, n_geki) ← short input
  let (input, n_katu) ← short input
  let (input, n_miss) ← short input
  let (input, total_score) ← integer input
  let (input, greatest_combo) ← short input
  let (input, perfect) ← byte input
  let (input, mods) ← integer input
  let (input, life_bar) ← osr_string input
  let (input, time_stamp) ← le_i64 input
  let (input, compressed_length) ← integer input
  let (input, compressed_data) ← take compressed_length input
  let (input, online_score_id) ← le_i64 input
  return (input,
      { game_mode := game_mode
        version := version
        beatmap_md5 := beatmap_md5
        player_name := player_name
        replay_md5 := replay_md5
        n300 := n300
        n100 := n100
        n50 := n50
        n_geki := n_geki
        n_katu := n_katu
        n_miss := n_miss
        total_score := total_score
        greatest_combo := greatest_combo
        perfect := perfect
        mods := mods
        life_bar := life_bar
        time_stamp := time_stamp
        compressed_data := compressed_data
        online_score_id := online_score_id })

/-- `Replay::parse` in `parser.rs`: runs the pipeline and discards the
unconsumed trailing bytes. -/
def Replay.parse (input : List Nat) : Except ParseErr Replay := do
  let (_, replay) ← replayParser input
  return replay

/-- `str::split(sep)` on a character list: the list of (possibly empty)
substrings between occurrences of `sep`; never empty (`""` splits to
`[""]`). -/
def splitOnChar (sep : Char) : List Char → List (List Char)
  | [] => [[]]
  | c :: rest =>
      if c = sep then [] :: splitOnChar sep rest
      else
        match splitOnChar sep rest with
        | [] => [[c]]
        | p :: ps => (c :: p) :: ps

/-- `str::split_terminator(sep)`: like `split`, but a final empty substring
(produced by a terminating separator, or by an empty input) is omitted. -/
def splitTerminator (sep : Char) (l : List Char) : List (List Char) :=
  let ps := splitOnChar sep l
  if ps.getLast? = some [] then ps.dropLast else ps

/-- Value of an ASCII digit. -/
def charDigit (c : Char) : Nat := c.toNat - '0'.toNat

/-- Value of an ASCII digit string, most significant first. -/
def digitsToNat (l : List Char) : Nat := l.foldl (fun acc c => acc * 10 + charDigit c) 0

/-- Nonempty, all ASCII digits. -/
def allDigits (l : List Char) : Bool := decide (l ≠ []) && l.all Char.isDigit

/-- A nonempty all-digit string evaluated to its value, `none` otherwise. -/
def parseIntDigits (l : List Char) : Option Nat :=
  if allDigits l then some (digitsToNat l) else none

/-- Rust `str::parse::<i64>` (`i64::from_str`): optional `+`/`-` sign, one
or more ASCII digits, in-range for `i64`; a failure (a `ParseIntError`)
reaches `get_actions` as `ReplayDataError::InvalidValueError` via the
`From<ParseIntError>` impl in `errors.rs`. -/
def parseSign (s : List Char) : Bool × List Char :=
  match s with
  | '-' :: r => (true, r)
  | '+' :: r => (false, r)
  | _ => (false, s)

def parseI64 (s : List Char) : Except ReplayDataError Int :=
  match parseIntDigits (parseSign s).2 with
  | none => .error ReplayDataError.invalidValueError
  | some n =>
      let v : Int := if (parseSign s).1 then -(n : Int) else (n : Int)
      if -(2 ^ 63) ≤ v ∧ v < 2 ^ 63 then .ok v
      else .error ReplayDataError.invalidValueError

/-- Rust `str::parse::<u32>` (`u32::from_str`): optional `+` sign, one or
more ASCII digits, in-range for `u32`; failures become
`InvalidValueError` as for `parseI64`. -/
def parseU32 (s : List Char) : Except ReplayDataError Nat :=
  match parseIntDigits (match s with | '+' :: r => r | _ => s) with
  | none => .error ReplayDataError.invalidValueError
  | some n =>
      if n < 2 ^ 32 then .ok n else .error ReplayDataError.invalidValueError

/-- Whether `c` introduces a float exponent. -/
def isExpChar (c : Char) : Bool := c = 'e' || c = 'E'

/-- The mantissa part of Rust's float grammar:
`Digit+ | Digit+ '.' Digit* | Digit* '.' Digit+`. -/
def validMantissa (m : List Char) : Bool :=
  let ip := m.takeWhile (fun c => c ≠ '.')
  match m.dropWhile (fun c => c ≠ '.') with
  | [] => allDigits m
  | _ :: fp => ip.all Char.isDigit && fp.all Char.isDigit
      && (decide (ip ≠ []) || decide (fp ≠ []))

/-- The grammar accepted by Rust `str::parse::<f32>` (`f32::from_str`):
`Sign? (inf | infinity | nan | Number)` case-insensitively, with
`Number ::= Mantissa (e|E Sign? Digit+)?`. -/
def validF32 (s : List Char) : Bool :=
  let body := match s with
    | '+' :: r => r
    | '-' :: r => r
    | _ => s
  let low := body.map Char.toLower
  if low = ['i', 'n', 'f'] || low = ['i', 'n', 'f', 'i', 'n', 'i', 't', 'y']
      || low = ['n', 'a', 'n'] then true
  else
    let mant := body.takeWhile (fun c => !isExpChar c)
    match body.dropWhile (fun c => !isExpChar c) with
    | [] => validMantissa mant
    | _ :: ex =>
        let ed := match ex with | '+' :: r => r | '-' :: r => r | _ => ex
        validMantissa mant && allDigits ed

/-- Rust `str::parse::<f32>`, value-abstracted: the parse succeeds exactly
on the grammar above (overflow rounds to an infinity rather than failing),
and the resulting `f32` is the IEEE-754 rounding of the accepted token.
The rounding itself (floating-point) is not modelled: the validated token,
which uniquely determines the `f32` value, stands for the value. -/
def parseF32 (s : List Char) : Except ReplayDataError (List Char) :=
  if validF32 s then .ok s else .error ReplayDataError.invalidValueError

/-- The `ReplayData` struct in `replay.rs`: one action frame.  `x` and `y`
are `f32` in the source; here they carry the accepted numeric token (see
`parseF32`). -/
structure ReplayData where
  time : Int
  x : List Char
  y : List Char
  keys : Nat
  deriving DecidableEq, Repr

/-- `Iterator::next` on the  `split('|')` iterator after `i` earlier calls,
combined with the `ok_or(MissingValueError)` in `get_actions`. -/
def nextSplit (l : List (List Char)) (i : Nat) : Except ReplayDataError (List Char) :=
  match l[i]? with
  | some s => .ok s
  | none => .error ReplayDataError.missingValueError

/-- The per-record closure inside `Replay::get_actions`: split the record
on `'|'` and parse the four sub-fields in order (`i64`, `f32`, `f32`,
`u32`), each `next()` guarded by `ok_or(MissingValueError)`. -/
def parseActionRecord (data : List Char) : Except ReplayDataError ReplayData := do
  let split := splitOnChar '|' data
  let time ← parseI64 (← nextSplit split 0)
  let x ← parseF32 (← nextSplit split 1)
  let y ← parseF32 (← nextSplit split 2)
  let keys ← parseU32 (← nextSplit split 3)
  .ok { time := time, x := x, y := y, keys := keys }

/-- The record-decoding stage of `Replay::get_actions`: split the
decompressed text with `split_terminator(',')`, decode every record, and
collect into `Result<Vec<_>, _>` (first error wins). -/
def actions_of_text (decompressed_data : List Char) : Except ReplayDataError (List ReplayData) :=
  (splitTerminator ',' decompressed_data).mapM parseActionRecord

/-- `Replay::decompress_lzma`.  The LZMA codec (`lzma_rs::lzma_decompress`)
is an external collaborator; it is passed as a function argument already
composed with the `From<LzmaError>` conversion of `errors.rs`.  The
`String::from_utf8` validation is `utf8Decode`. -/
def decompress_lzma (lzma_decompress : List Nat → Except ReplayDataError (List Nat))
    (self : Replay) : Except ReplayDataError (List Char) := do
  let decompressed_data ← lzma_decompress self.compressed_data
  match utf8Decode decompressed_data with
  | some s => .ok s
  | none => .error ReplayDataError.invalidUtfError

/-- `Replay::get_actions`, parameterised by the external LZMA codec. -/
def get_actions (lzma_decompress : List Nat → Except ReplayDataError (List Nat))
    (self : Replay) : Except ReplayDataError (List ReplayData) := do
  let decompressed_data ← decompress_lzma lzma_decompress self
  actions_of_text decompressed_data

/-! ### Canonical encoders

To state decoder correctness (and truncation behaviour) for all field
values at once, each field gets its canonical little-endian / ULEB128 /
conditional-string encoding; the theorems quantify over the encoded
values. -/

/-- Little-endian encoding of a 16-bit value. -/
def encU16 (n : Nat) : List Nat := [n % 2 ^ 8, n / 2 ^ 8 % 2 ^ 8]

/-- Little-endian encoding of a 32-bit value. -/
def encU32 (n : Nat) : List Nat :=
  [n % 2 ^ 8, n / 2 ^ 8 % 2 ^ 8, n / 2 ^ 16 % 2 ^ 8, n / 2 ^ 24 % 2 ^ 8]

/-- Little-endian encoding of a 64-bit value. -/
def encU64 (n : Nat) : List Nat :=
  [n % 2 ^ 8, n / 2 ^ 8 % 2 ^ 8, n / 2 ^ 16 % 2 ^ 8, n / 2 ^ 24 % 2 ^ 8,
   n / 2 ^ 32 % 2 ^ 8, n / 2 ^ 40 % 2 ^ 8, n / 2 ^ 48 % 2 ^ 8, n / 2 ^ 56 % 2 ^ 8]

/-- Two's-complement little-endian encoding of a signed 64-bit value. -/
def encI64 (i : Int) : List Nat := encU64 (i % 2 ^ 64).toNat

/-- ULEB128 encoding: 7 value bits per byte, low bits first, continuation
bit on every byte but the last. -/
def encUleb (n : Nat) : List Nat :=
  if n < 128 then [n] else (n % 128 + 128) :: encUleb (n / 128)
  termination_by n
  decreasing_by exact Nat.div_lt_self (by omega) (by omega)

/-- Conditional-string encoding: sentinel `0x00` for the empty string,
otherwise the presence flag `0x0B` used by the format, the ULEB128 length
and the bytes. -/
def encOsrString (s : List Nat) : List Nat :=
  if s = [] then [0x00] else 0x0B :: (encUleb s.length ++ s)

/-- Encoding of a game mode as its byte. -/
def encGameMode : GameMode → List Nat
  | GameMode.Osu => [0]
  | GameMode.Taiko => [1]
  | GameMode.CatchTheBeat => [2]
  | GameMode.Mania => [3]

/-- The full header encoding, fields in the fixed format order. -/
def encHeader (r : Replay) : List Nat :=
  encGameMode r.game_mode ++ (encU32 r.version ++ (encOsrString r.beatmap_md5 ++
  (encOsrString r.player_name ++ (encOsrString r.replay_md5 ++ (encU16 r.n300 ++
  (encU16 r.n100 ++ (encU16 r.n50 ++ (encU16 r.n_geki ++ (encU16 r.n_katu ++
  (encU16 r.n_miss ++ (encU32 r.total_score ++ (encU16 r.greatest_combo ++
  ([r.perfect] ++ (encU32 r.mods ++ (encOsrString r.life_bar ++
  (encI64 r.time_stamp ++ (encU32 r.compressed_data.length ++
  (r.compressed_data ++ encI64 r.online_score_id))))))))))))))))))

/-- Well-formedness of a `Replay` value: every field within the range of
its machine type, strings valid UTF-8 with in-range lengths. -/
def WFReplay (r : Replay) : Prop :=
  r.version < 2 ^ 32 ∧ r.n300 < 2 ^ 16 ∧ r.n100 < 2 ^ 16 ∧ r.n50 < 2 ^ 16 ∧
  r.n_geki < 2 ^ 16 ∧ r.n_katu < 2 ^ 16 ∧ r.n_miss < 2 ^ 16 ∧
  r.total_score < 2 ^ 32 ∧ r.greatest_combo < 2 ^ 16 ∧ r.perfect < 2 ^ 8 ∧
  r.mods < 2 ^ 32 ∧
  -(2 ^ 63) ≤ r.time_stamp ∧ r.time_stamp < 2 ^ 63 ∧
  -(2 ^ 63) ≤ r.online_score_id ∧ r.online_score_id < 2 ^ 63 ∧
  isValidUtf8 r.beatmap_md5 = true ∧ r.beatmap_md5.length < 2 ^ 32 ∧
  isValidUtf8 r.player_name = true ∧ r.player_name.length < 2 ^ 32 ∧
  isValidUtf8 r.replay_md5 = true ∧ r.replay_md5.length < 2 ^ 32 ∧
  isValidUtf8 r.life_bar = true ∧ r.life_bar.length < 2 ^ 32 ∧
  r.compressed_data.length < 2 ^ 32

instance (r : Replay) : Decidable (WFReplay r) := by
  unfold WFReplay; infer_instance

/-- A concrete well-formed replay record exercising every field shape. -/
def sampleReplay : Replay :=
  { game_mode := GameMode.Mania
    version := 20200101
    beatmap_md5 := [0x61, 0x62]
    player_name := [0xC3, 0xA9]
    replay_md5 := []
    n300 := 1
    n100 := 2
    n50 := 3
    n_geki := 4
    n_katu := 5
    n_miss := 6
    total_score := 123456
    greatest_combo := 421
    perfect := 1
    mods := 9
    life_bar := [0x30, 0x7C, 0x31]
    time_stamp := -77
    compressed_data := [0xAA, 0xBB]
    online_score_id := 99 }

instance {ε α : Type} [DecidableEq ε] [DecidableEq α] : DecidableEq (Except ε α) :=
  fun x y =>
    match x, y with
    | .ok a, .ok b =>
        if h : a = b then isTrue (by rw [h]) else isFalse (by simp [h])
    | .error e, .error f =>
        if h : e = f then isTrue (by rw [h]) else isFalse (by simp [h])
    | .ok _, .error _ => isFalse (by simp)
    | .error _, .ok _ => isFalse (by simp)

/-- A record's four sub-field tokens: time, x, y, keys. -/
abbrev Tok4 := List Char × List Char × List Char × List Char

/-- A record segment rendered from its four tokens, pipe-delimited. -/
def renderSeg (q : Tok4) : List Char :=
  q.1 ++ '|' :: (q.2.1 ++ '|' :: (q.2.2.1 ++ '|' :: q.2.2.2))

/-- Action text rendered from record segments, each terminated by a
comma. -/
def renderText (segs : List (List Char)) : List Char :=
  (segs.map (· ++ [','])).flatten

/-- The token quadruple carries no delimiter characters and parses
field-wise to the paired frame. -/
def GoodPair (p : Tok4 × ReplayData) : Prop :=
  ('|' ∉ p.1.1 ∧ ',' ∉ p.1.1) ∧ ('|' ∉ p.1.2.1 ∧ ',' ∉ p.1.2.1) ∧
  ('|' ∉ p.1.2.2.1 ∧ ',' ∉ p.1.2.2.1) ∧ ('|' ∉ p.1.2.2.2 ∧ ',' ∉ p.1.2.2.2) ∧
  parseI64 p.1.1 = .ok p.2.time ∧ parseF32 p.1.2.1 = .ok p.2.x ∧
  parseF32 p.1.2.2.1 = .ok p.2.y ∧ parseU32 p.1.2.2.2 = .ok p.2.keys

instance (p : Tok4 × ReplayData) : Decidable (GoodPair p) := by
  unfold GoodPair; infer_instance

/-- A concrete pair list rendering to `"0|0|0|0,100|50.5|60.25|1,"`. -/
def samplePairs : List (Tok4 × ReplayData) :=
  [((['0'], ['0'], ['0'], ['0']),
    { time := 0, x := ['0'], y := ['0'], keys := 0 }),
   ((['1', '0', '0'], ['5', '0', '.', '5'], ['6', '0', '.', '2', '5'], ['1']),
    { time := 100, x := ['5', '0', '.', '5'], y := ['6', '0', '.', '2', '5'],
      keys := 1 })]

/-- The accumulated value named by the spec: byte `i` contributes
`(byte & 0x7F) << (7*i)` (truncated to 32 bits), OR-ed together. -/
def ulebClaimValue (bytes : List Nat) : Nat :=
  bytes.enum.foldl (fun result p => result ||| ((p.2 &&& 0x7F) <<< (7 * p.1) % 2 ^ 32)) 0

/-! ### Monadic reduction lemmas for `Except` -/

theorem bind_ok_eq {ε α β : Type} (a : α) (f : α → Except ε β) :
    (Except.ok a : Except ε α) >>= f = f a := rfl

theorem bind_error_eq {ε α β : Type} (e : ε) (f : α → Except ε β) :
    (Except.error e : Except ε α) >>= f = .error e := rfl

theorem map_ok_eq {ε α β : Type} (a : α) (f : α → β) :
    f <$> (Except.ok a : Except ε α) = .ok (f a) := rfl

theorem map_error_eq {ε α β : Type} (e : ε) (f : α → β) :
    f <$> (Except.error e : Except ε α) = .error e := rfl

theorem pure_eq_ok {ε α : Type} (a : α) :
    (pure a : Except ε α) = .ok a := rfl

theorem take_enc (l x : List Nat) : take l.length (l ++ x) = .ok (x, l) := by
  have h : ¬ ((l ++ x).length < l.length) := by simp [List.length_append]
  simp [take, h, List.take_left, List.drop_left]

/-! ### Bitwise helper lemmas -/

theorem and127_of_lt {b : Nat} (h : b < 128) : b &&& 127 = b := by
  have : b &&& (2 ^ 7 - 1) = b % 2 ^ 7 := Nat.and_pow_two_sub_one_eq_mod b 7
  simpa [Nat.mod_eq_of_lt h] using this

theorem and128_eq_zero_of_lt {b : Nat} (h : b < 128) : b &&& 128 = 0 := by
  have : b &&& 2 ^ 7 = (b.testBit 7).toNat * 2 ^ 7 := Nat.and_two_pow b 7
  rw [Nat.testBit_eq_false_of_lt h] at this
  simpa using this

theorem lor_add_of_lt {a b k : Nat} (h : a < 2 ^ k) :
    a ||| b * 2 ^ k = a + b * 2 ^ k := by
  have := Nat.mul_add_lt_is_or (a := b) h
  calc a ||| b * 2 ^ k = b * 2 ^ k ||| a := Nat.lor_comm _ _
    _ = 2 ^ k * b ||| a := by ring_nf
    _ = 2 ^ k * b + a := (this).symm
    _ = a + b * 2 ^ k := by ring

/-! ### ULEB128 lemmas -/

/-- If every byte of `l` has the continuation bit set, the loop exhausts the
input and fails with Eof. -/
theorem uleb128Go_eof (l : List Nat) : ∀ acc shift, (∀ b ∈ l, b &&& 0x80 ≠ 0) →
    uleb128Go l acc shift = .error .unexpectedEndOfInput := by
  induction l with
  | nil => intro acc shift _; rfl
  | cons b rest ih =>
      intro acc shift h
      have hb : b &&& 0x80 ≠ 0 := h b (by simp)
      simp only [uleb128Go, if_neg hb]
      exact ih _ _ (fun x hx => h x (by simp [hx]))

/-- If some byte of `l` has the continuation bit clear, the loop returns
successfully. -/
theorem uleb128Go_ok_of_terminator (l : List Nat) : ∀ acc shift,
    (∃ b ∈ l, b &&& 0x80 = 0) → ∃ p, uleb128Go l acc shift = .ok p := by
  induction l with
  | nil => intro acc shift h; simp at h
  | cons b rest ih =>
      intro acc shift h
      by_cases hb : b &&& 0x80 = 0
      · refine ⟨(rest, acc ||| ((b &&& 0x7F) <<< shift % 2 ^ 32)), ?_⟩
        simp [uleb128Go, if_pos hb]
      · obtain ⟨x, hx, hx0⟩ := h
        rcases List.mem_cons.mp hx with hx | hx
        · exact absurd hx0 (by simpa [hx] using hb)
        · obtain ⟨p, hp⟩ := ih (acc ||| ((b &&& 0x7F) <<< shift % 2 ^ 32)) (shift + 7)
            ⟨x, hx, hx0⟩
          exact ⟨p, by simp only [uleb128Go, if_neg hb]; exact hp⟩

/-- The only error kind the loop produces is Eof. -/
theorem uleb128Go_error_eq (l : List Nat) : ∀ acc shift e,
    uleb128Go l acc shift = .error e → e = .unexpectedEndOfInput := by
  induction l with
  | nil => intro acc shift e h; simpa [uleb128Go] using h.symm
  | cons b rest ih =>
      intro acc shift e h
      by_cases hb : b &&& 0x80 = 0
      · simp [uleb128Go, if_pos hb] at h
      · simp only [uleb128Go, if_neg hb] at h
        exact ih _ _ _ h

/-- The loop fails exactly when every byte carries the continuation bit. -/
theorem uleb128Go_error_iff (l : List Nat) (acc shift : Nat) :
    uleb128Go l acc shift = .error .unexpectedEndOfInput ↔
      ∀ b ∈ l, b &&& 0x80 ≠ 0 := by
  constructor
  · intro h
    by_contra hc
    push_neg at hc
    obtain ⟨b, hb, hb0⟩ := hc
    obtain ⟨p, hp⟩ := uleb128Go_ok_of_terminator l acc shift ⟨b, hb, hb0⟩
    rw [hp] at h
    exact absurd h (by simp)
  · exact uleb128Go_eof l acc shift

/-- The loop on an input decomposed as continuation bytes, a terminator and
a remainder: consumes exactly through the terminator and accumulates as the
enumerated fold states. -/
theorem uleb128Go_fold (pre : List Nat) : ∀ t rest acc k,
    (∀ b ∈ pre, b &&& 0x80 ≠ 0) → t &&& 0x80 = 0 →
    uleb128Go (pre ++ t :: rest) acc (7 * k) =
      .ok (rest, ((pre ++ [t]).enumFrom k).foldl
        (fun result p => result ||| ((p.2 &&& 0x7F) <<< (7 * p.1) % 2 ^ 32)) acc) := by
  induction pre with
  | nil =>
      intro t rest acc k _ ht
      simp [uleb128Go, if_pos ht, List.enumFrom, Nat.mul_comm 7 k]
  | cons b pre' ih =>
      intro t rest acc k hpre ht
      have hb : b &&& 0x80 ≠ 0 := hpre b (by simp)
      have hstep : 7 * k + 7 = 7 * (k + 1) := by ring
      simp only [List.cons_append, uleb128Go, if_neg hb, hstep, List.append_eq]
      rw [ih t rest _ (k + 1) (fun x hx => hpre x (by simp [hx])) ht]
      simp [List.enumFrom, Nat.mul_comm 7 k]

/-- C2: the ULEB128 decoder reads bytes one at a time, accumulating
`(byte & 0x7F) << shift` with `shift` growing by 7 per byte; it stops at
and consumes the first byte whose `0x80` bit is clear, returning the
accumulated value and the input after that byte; a single first byte
`b < 0x80` decodes to `b` consuming one byte; it fails — always with
`UnexpectedEndOfInput` — exactly when every input byte has the `0x80` bit
set (in particular on empty input). -/
theorem uleb128_spec (input : List Nat) :
    (uleb128 input = .error .unexpectedEndOfInput ↔ ∀ b ∈ input, b &&& 0x80 ≠ 0) ∧
    (∀ e, uleb128 input = .error e → e = ParseErr.unexpectedEndOfInput) ∧
    (∀ pre t rest, input = pre ++ t :: rest → (∀ b ∈ pre, b &&& 0x80 ≠ 0) →
      t &&& 0x80 = 0 →
      uleb128 input = .ok (rest, ulebClaimValue (pre ++ [t]))) ∧
    (∀ b rest, input = b :: rest → b < 0x80 →
      uleb128 input = .ok (rest, b)) := by
  refine ⟨uleb128Go_error_iff input 0 0, fun e => uleb128Go_error_eq input 0 0 e, ?_, ?_⟩
  · intro pre t rest hin hpre ht
    subst hin
    have h := uleb128Go_fold pre t rest 0 0 hpre ht
    simpa [uleb128, ulebClaimValue, List.enum] using h
  · intro b rest hin hb
    subst hin
    have hb0 : b &&& 0x80 = 0 := and128_eq_zero_of_lt hb
    simp only [uleb128, uleb128Go, if_pos hb0, Nat.shiftLeft_zero, Nat.zero_or]
    rw [and127_of_lt hb, Nat.mod_eq_of_lt (by omega)]

/-- Witness for C2 at the concrete input `[0x85, 0x03, 0x99]`: one
continuation byte, the terminator `0x03`, and a trailing byte that is
left unconsumed. -/
theorem uleb128_spec_witness :
    uleb128 [0x85, 0x03, 0x99] = .ok ([0x99], ulebClaimValue [0x85, 0x03]) :=
  (uleb128_spec [0x85, 0x03, 0x99]).2.2.1 [0x85] 0x03 [0x99] rfl (by decide) (by decide)

/-- C4: the conditional string decoder on an input whose first byte is the
absent sentinel `0x00` returns the empty string and consumes exactly one
byte, whatever bytes follow. -/
theorem osr_string_absent (rest : List Nat) :
    osr_string (0x00 :: rest) = .ok (rest, []) := rfl

/-- C5: game-mode decoding maps bytes 0, 1, 2, 3 to `Osu`, `Taiko`,
`CatchTheBeat`, `Mania` respectively and fails with `InvalidEnumValue`
(`InvalidValueError` for the `TryFrom` impl) on every other value, never
substituting a default variant. -/
theorem game_mode_spec :
    (∀ rest, game_mode (0 :: rest) = .ok (rest, GameMode.Osu)) ∧
    (∀ rest, game_mode (1 :: rest) = .ok (rest, GameMode.Taiko)) ∧
    (∀ rest, game_mode (2 :: rest) = .ok (rest, GameMode.CatchTheBeat)) ∧
    (∀ rest, game_mode (3 :: rest) = .ok (rest, GameMode.Mania)) ∧
    (∀ b rest, b ≠ 0 → b ≠ 1 → b ≠ 2 → b ≠ 3 →
      game_mode (b :: rest) = .error ParseErr.invalidEnumValue) ∧
    GameMode.tryFrom 0 = .ok GameMode.Osu ∧
    GameMode.tryFrom 1 = .ok GameMode.Taiko ∧
    GameMode.tryFrom 2 = .ok GameMode.CatchTheBeat ∧
    GameMode.tryFrom 3 = .ok GameMode.Mania ∧
    (∀ b, b ≠ 0 → b ≠ 1 → b ≠ 2 → b ≠ 3 →
      GameMode.tryFrom b = .error ReplayDataError.invalidValueError) := by
  refine ⟨fun rest => rfl, fun rest => rfl, fun rest => rfl, fun rest => rfl, ?_,
    rfl, rfl, rfl, rfl, ?_⟩
  · intro b rest h0 h1 h2 h3
    obtain ⟨n, rfl⟩ : ∃ n, b = n + 4 := ⟨b - 4, by omega⟩
    rfl
  · intro b h0 h1 h2 h3
    obtain ⟨n, rfl⟩ : ∃ n, b = n + 4 := ⟨b - 4, by omega⟩
    rfl

/-- Witness for C5 at the concrete invalid byte 99. -/
theorem game_mode_spec_witness :
    game_mode [99] = .error ParseErr.invalidEnumValue ∧
    GameMode.tryFrom 99 = .error ReplayDataError.invalidValueError :=
  ⟨game_mode_spec.2.2.2.2.1 99 [] (by decide) (by decide) (by decide) (by decide),
   game_mode_spec.2.2.2.2.2.2.2.2.2 99 (by decide) (by decide) (by decide) (by decide)⟩

/-- Appending extra bytes after a successful ULEB128 decode leaves the
decoded value unchanged and the extra bytes unconsumed. -/
theorem uleb128Go_extend (l : List Nat) : ∀ acc shift rem v r,
    uleb128Go l acc shift = .ok (rem, v) →
    uleb128Go (l ++ r) acc shift = .ok (rem ++ r, v) := by
  induction l with
  | nil => intro acc shift rem v r h; simp [uleb128Go] at h
  | cons b bs ih =>
      intro acc shift rem v r h
      simp only [uleb128Go] at h
      by_cases hb : b &&& 0x80 = 0
      · rw [if_pos hb] at h
        have hbv : bs = rem ∧ acc ||| (b &&& 0x7F) <<< shift % 2 ^ 32 = v := by
          simpa using h
        obtain ⟨rfl, rfl⟩ := hbv
        rw [List.cons_append]
        simp [uleb128Go, if_pos hb]
      · rw [if_neg hb] at h
        rw [List.cons_append]
        simp only [uleb128Go, if_neg hb]
        exact ih _ _ _ _ r h

/-- C3: on an input whose first byte is a non-zero presence flag followed
by ULEB128 length bytes `u` decoding to `L` and then the rest, the
conditional string decoder: returns exactly the next `L` bytes when they
are valid UTF-8, advancing past `1 + u.length + L` bytes; fails with
`InvalidUtf8` when those `L` bytes are not valid UTF-8; and fails with
`UnexpectedEndOfInput` when fewer than `L` bytes remain. -/
theorem osr_string_present_spec (flag L : Nat) (u s rest : List Nat)
    (hflag : flag ≠ 0) (hu : uleb128 u = .ok ([], L)) (hs : s.length = L) :
    (isValidUtf8 s = true →
      osr_string (flag :: (u ++ s ++ rest)) = .ok (rest, s)) ∧
    (isValidUtf8 s = false →
      osr_string (flag :: (u ++ s ++ rest)) = .error ParseErr.invalidUtf8) ∧
    (∀ t : List Nat, t.length < L →
      osr_string (flag :: (u ++ t)) = .error ParseErr.unexpectedEndOfInput) := by
  subst hs
  have hus : ∀ r : List Nat, uleb128 (u ++ r) = .ok (r, s.length) := fun r => by
    simpa using uleb128Go_extend u 0 0 [] s.length r hu
  refine ⟨?_, ?_, ?_⟩
  · intro hvalid
    simp only [List.append_assoc, osr_string, byte, bind_ok_eq, if_neg hflag,
      hus (s ++ rest), take_enc, utf8_string, hvalid, if_true, bind_error_eq,
      map_ok_eq, map_error_eq, pure_eq_ok]
  · intro hinvalid
    simp only [List.append_assoc, osr_string, byte, bind_ok_eq, if_neg hflag,
      hus (s ++ rest), take_enc, utf8_string, hinvalid, bind_error_eq,
      map_ok_eq, map_error_eq, pure_eq_ok]
    rfl
  · intro t ht
    simp only [osr_string, byte, bind_ok_eq, if_neg hflag, hus t]
    simp only [take, if_pos ht, bind_error_eq, map_error_eq]

/-- Witness for C3: flag `0x0B`, single-byte ULEB128 length 3, payload
`"abc"`, one trailing byte. -/
theorem osr_string_present_witness :
    osr_string (0x0B :: ([0x03] ++ [0x61, 0x62, 0x63] ++ [0x77]))
      = .ok ([0x77], [0x61, 0x62, 0x63]) :=
  (osr_string_present_spec 0x0B 3 [0x03] [0x61, 0x62, 0x63] [0x77]
    (by decide) rfl rfl).1 (by rfl)

/-! ### Stage correctness lemmas -/

theorem byte_enc (b : Nat) (x : List Nat) : byte (b :: x) = .ok (x, b) := rfl

theorem short_enc {n : Nat} (h : n < 2 ^ 16) (x : List Nat) :
    short (encU16 n ++ x) = .ok (x, n) := by
  simp only [encU16, List.cons_append, List.nil_append, short,
    Except.ok.injEq, Prod.mk.injEq, true_and]
  omega

theorem integer_enc {n : Nat} (h : n < 2 ^ 32) (x : List Nat) :
    integer (encU32 n ++ x) = .ok (x, n) := by
  simp only [encU32, List.cons_append, List.nil_append, integer,
    Except.ok.injEq, Prod.mk.injEq, true_and]
  omega

theorem le_i64_enc {i : Int} (h1 : -(2 ^ 63) ≤ i) (h2 : i < 2 ^ 63) (x : List Nat) :
    le_i64 (encI64 i ++ x) = .ok (x, i) := by
  simp only [encI64, encU64, List.cons_append, List.nil_append, le_i64,
    Except.ok.injEq, Prod.mk.injEq, true_and]
  split <;> omega

theorem game_mode_enc (m : GameMode) (x : List Nat) :
    game_mode (encGameMode m ++ x) = .ok (x, m) := by
  cases m <;> rfl

theorem add128_and127 {x : Nat} (h : x < 128) : (x + 128) &&& 127 = x := by
  have h7 := Nat.and_pow_two_sub_one_eq_mod (x + 128) 7
  norm_num at h7
  omega

theorem add128_and128 {x : Nat} (h : x < 128) : (x + 128) &&& 128 ≠ 0 := by
  have h7 : (x + 128).testBit 7 = true := by
    rw [Nat.testBit_to_div_mod]
    simp only [decide_eq_true_eq]
    omega
  have ha := Nat.and_two_pow (x + 128) 7
  rw [h7] at ha
  norm_num at ha
  omega

/-- Decoding the canonical ULEB128 encoding: the loop adds `n·2^shift` to
the low-bit accumulator. -/
theorem uleb128Go_encUleb (n : Nat) : ∀ acc shift r, n * 2 ^ shift < 2 ^ 32 →
    acc < 2 ^ shift →
    uleb128Go (encUleb n ++ r) acc shift = .ok (r, acc + n * 2 ^ shift) := by
  induction n using Nat.strong_induction_on with
  | _ n ih =>
    intro acc shift r hn hacc
    rw [encUleb]
    by_cases h : n < 128
    · rw [if_pos h]
      have hterm : n &&& 0x80 = 0 := and128_eq_zero_of_lt h
      simp only [List.cons_append, List.append_eq, List.nil_append, uleb128Go,
        if_pos hterm]
      rw [and127_of_lt h, Nat.shiftLeft_eq, Nat.mod_eq_of_lt hn, lor_add_of_lt hacc]
    · rw [if_neg h]
      have hx : n % 128 < 128 := Nat.mod_lt _ (by omega)
      have hb : (n % 128 + 128) &&& 0x80 ≠ 0 := add128_and128 hx
      simp only [List.cons_append, List.append_eq, uleb128Go, if_neg hb]
      have hp : (2 : Nat) ^ (shift + 7) = 2 ^ shift * 128 := by rw [pow_add]; norm_num
      have hmlt : n % 128 * 2 ^ shift ≤ n * 2 ^ shift :=
        Nat.mul_le_mul_right _ (Nat.mod_le n 128)
      rw [add128_and127 hx, Nat.shiftLeft_eq,
        Nat.mod_eq_of_lt (by omega : n % 128 * 2 ^ shift < 2 ^ 32),
        lor_add_of_lt hacc]
      have hdiv : n / 128 * 2 ^ (shift + 7) = 128 * (n / 128) * 2 ^ shift := by
        rw [hp]; ring
      have hdle : 128 * (n / 128) ≤ n := by omega
      have hrec := ih (n / 128) (Nat.div_lt_self (by omega) (by omega))
        (acc + n % 128 * 2 ^ shift) (shift + 7) r ?_ ?_
      · rw [hrec]
        have hval : acc + n % 128 * 2 ^ shift + n / 128 * 2 ^ (shift + 7)
            = acc + n * 2 ^ shift := by
          rw [hdiv]
          calc acc + n % 128 * 2 ^ shift + 128 * (n / 128) * 2 ^ shift
              = acc + (n % 128 + 128 * (n / 128)) * 2 ^ shift := by ring
            _ = acc + n * 2 ^ shift := by rw [Nat.mod_add_div]
        rw [hval]
      · calc n / 128 * 2 ^ (shift + 7) = 128 * (n / 128) * 2 ^ shift := hdiv
          _ ≤ n * 2 ^ shift := Nat.mul_le_mul_right _ hdle
          _ < 2 ^ 32 := hn
      · have hm : n % 128 * 2 ^ shift ≤ 127 * 2 ^ shift :=
          Nat.mul_le_mul_right _ (by omega)
        omega

theorem uleb128_eof {l : List Nat} (h : ∀ b ∈ l, b &&& 0x80 ≠ 0) :
    uleb128 l = .error .unexpectedEndOfInput := uleb128Go_eof l 0 0 h

theorem uleb128_encUleb {n : Nat} (h : n < 2 ^ 32) (r : List Nat) :
    uleb128 (encUleb n ++ r) = .ok (r, n) := by
  have hg := uleb128Go_encUleb n 0 0 r (by simpa) (by norm_num)
  simpa [uleb128] using hg

theorem encUleb_ne_nil (n : Nat) : encUleb n ≠ [] := by
  rw [encUleb]; split <;> simp

/-- Every byte of a ULEB128 encoding except the last carries the
continuation bit. -/
theorem encUleb_dropLast_cont (n : Nat) : ∀ b ∈ (encUleb n).dropLast, b &&& 0x80 ≠ 0 := by
  induction n using Nat.strong_induction_on with
  | _ n ih =>
    rw [encUleb]
    by_cases h : n < 128
    · rw [if_pos h]; simp
    · rw [if_neg h, List.dropLast_cons_of_ne_nil (encUleb_ne_nil _)]
      intro b hb
      rcases List.mem_cons.mp hb with rfl | hb
      · exact add128_and128 (Nat.mod_lt _ (by omega))
      · exact ih (n / 128) (Nat.div_lt_self (by omega) (by omega)) b hb

/-- A strict prefix of a ULEB128 encoding consists of continuation bytes
only. -/
theorem encUleb_take_cont (n k : Nat) (hk : k < (encUleb n).length) :
    ∀ b ∈ (encUleb n).take k, b &&& 0x80 ≠ 0 := by
  intro b hb
  apply encUleb_dropLast_cont n
  rw [List.dropLast_eq_take]
  have htt : (encUleb n).take k = ((encUleb n).take ((encUleb n).length - 1)).take k := by
    rw [List.take_take]
    congr 1
    omega
  rw [htt] at hb
  exact List.mem_of_mem_take hb

/-- Decoding the canonical conditional-string encoding. -/
theorem osr_string_enc (s : List Nat) (hvalid : isValidUtf8 s = true)
    (hlen : s.length < 2 ^ 32) (r : List Nat) :
    osr_string (encOsrString s ++ r) = .ok (r, s) := by
  by_cases hs : s = []
  · subst hs
    simp [encOsrString, osr_string, byte, bind_ok_eq, pure_eq_ok]
  · simp only [encOsrString, if_neg hs, List.cons_append, osr_string, byte,
      bind_ok_eq]
    rw [if_neg (by norm_num)]
    rw [List.append_assoc, uleb128_encUleb hlen (s ++ r), bind_ok_eq]
    simp only [take_enc, bind_ok_eq, utf8_string, hvalid, if_true, pure_eq_ok]

/-- A strict prefix of a conditional-string encoding fails with Eof. -/
theorem osr_string_trunc (s : List Nat) (hlen : s.length < 2 ^ 32) :
    ∀ k, k < (encOsrString s).length →
      osr_string ((encOsrString s).take k) = .error ParseErr.unexpectedEndOfInput := by
  intro k hk
  by_cases hs : s = []
  · subst hs
    rw [encOsrString, if_pos rfl] at hk
    simp only [List.length_cons, List.length_nil] at hk
    obtain rfl : k = 0 := by omega
    rfl
  · simp only [encOsrString, if_neg hs] at hk ⊢
    match k with
    | 0 => rfl
    | k + 1 =>
      rw [List.take_succ_cons]
      simp only [List.length_cons] at hk
      have hk' : k < (encUleb s.length ++ s).length := by omega
      simp only [osr_string, byte, bind_ok_eq]
      rw [if_neg (by norm_num)]
      rw [List.take_append_eq_append_take]
      by_cases hcase : k < (encUleb s.length).length
      · rw [show k - (encUleb s.length).length = 0 by omega, List.take_zero,
          List.append_nil]
        rw [uleb128_eof (encUleb_take_cont _ _ hcase), bind_error_eq]
      · rw [List.take_of_length_le (by omega)]
        have hlt : (s.take (k - (encUleb s.length).length)).length < s.length := by
          rw [List.length_take]
          rw [List.length_append] at hk'
          omega
        rw [uleb128_encUleb hlen _, bind_ok_eq]
        simp only [take, if_pos hlt, bind_error_eq]

/-- C1: on a buffer carrying, in the fixed order, a mode byte, a 4-byte LE
version, three conditional strings (beatmap hash, player name, replay
hash), six 2-byte counters, a 4-byte score, a 2-byte combo, a perfect
byte, a 4-byte modifier mask, a conditional life-graph string, an 8-byte
signed timestamp, a 4-byte length followed by exactly that many raw blob
bytes, and an 8-byte signed online id, header decoding succeeds and every
field of the returned record equals the corresponding decoded value, with
the trailing bytes left over. -/
theorem replay_parser_spec (r : Replay) (h : WFReplay r) (rest : List Nat) :
    replayParser (encHeader r ++ rest) = .ok (rest, r) := by
  obtain ⟨hv, h300, h100, h50, hgeki, hkatu, hmiss, hscore, hcombo, hperf, hmods,
    hts1, hts2, hid1, hid2, hbm, hbml, hpn, hpnl, hrm, hrml, hlb, hlbl, hcd⟩ := h
  simp only [encHeader, List.append_assoc]
  simp only [replayParser, game_mode_enc, bind_ok_eq, integer_enc hv,
    osr_string_enc _ hbm hbml, osr_string_enc _ hpn hpnl, osr_string_enc _ hrm hrml,
    short_enc h300, short_enc h100, short_enc h50, short_enc hgeki, short_enc hkatu,
    short_enc hmiss, integer_enc hscore, short_enc hcombo, List.cons_append,
    List.nil_append, byte, integer_enc hmods, osr_string_enc _ hlb hlbl,
    le_i64_enc hts1 hts2, integer_enc hcd, take_enc, le_i64_enc hid1 hid2,
    pure_eq_ok]

/-- Witness for C1 at the concrete record `sampleReplay` with one trailing
byte. -/
theorem replay_parser_spec_witness :
    replayParser (encHeader sampleReplay ++ [0x55]) = .ok ([0x55], sampleReplay) :=
  replay_parser_spec sampleReplay (by decide) [0x55]

/-! ### Truncation lemmas: every strict prefix of a field encoding makes
its decoder fail with Eof -/

theorem encGameMode_length (m : GameMode) : (encGameMode m).length = 1 := by
  cases m <;> rfl

theorem encU16_length (n : Nat) : (encU16 n).length = 2 := rfl

theorem encU32_length (n : Nat) : (encU32 n).length = 4 := rfl

theorem encI64_length (i : Int) : (encI64 i).length = 8 := rfl

theorem game_mode_trunc (m : GameMode) (j : Nat) (hj : j < (encGameMode m).length) :
    game_mode ((encGameMode m).take j) = .error .unexpectedEndOfInput := by
  rw [encGameMode_length] at hj
  obtain rfl : j = 0 := by omega
  rw [List.take_zero]
  rfl

theorem short_trunc (n j : Nat) (hj : j < (encU16 n).length) :
    short ((encU16 n).take j) = .error .unexpectedEndOfInput := by
  rw [encU16_length] at hj
  interval_cases j <;> rfl

theorem integer_trunc (n j : Nat) (hj : j < (encU32 n).length) :
    integer ((encU32 n).take j) = .error .unexpectedEndOfInput := by
  rw [encU32_length] at hj
  interval_cases j <;> rfl

theorem le_i64_trunc (i : Int) (j : Nat) (hj : j < (encI64 i).length) :
    le_i64 ((encI64 i).take j) = .error .unexpectedEndOfInput := by
  rw [encI64_length] at hj
  interval_cases j <;> rfl

theorem byte_enc_list (b : Nat) (x : List Nat) : byte ([b] ++ x) = .ok (x, b) := rfl

theorem byte_trunc (b : Nat) (j : Nat) (hj : j < ([b] : List Nat).length) :
    byte (([b] : List Nat).take j) = .error .unexpectedEndOfInput := by
  simp only [List.length_cons, List.length_nil] at hj
  obtain rfl : j = 0 := by omega
  rfl

theorem take_trunc (l : List Nat) (j : Nat) (hj : j < l.length) :
    take l.length (l.take j) = .error .unexpectedEndOfInput := by
  have h : (l.take j).length < l.length := by
    rw [List.length_take]
    omega
  simp only [take, if_pos h]

/-- One pipeline step on a truncated buffer: if the cut falls inside this
field's encoding the step fails with Eof (and the error propagates),
otherwise the step consumes its encoding and the truncated remainder is
passed on. -/
theorem trunc_step {α β : Type} {p : List Nat → Except ParseErr (List Nat × α)}
    {cont : List Nat × α → Except ParseErr β} {e tail : List Nat} {v : α} {k : Nat}
    (hsucc : ∀ x, p (e ++ x) = .ok (x, v))
    (htrunc : ∀ j, j < e.length → p (e.take j) = .error .unexpectedEndOfInput)
    (hcont : e.length ≤ k →
      cont (tail.take (k - e.length), v) = .error .unexpectedEndOfInput) :
    (p ((e ++ tail).take k) >>= cont) = .error .unexpectedEndOfInput := by
  rw [List.take_append_eq_append_take]
  by_cases hc : k < e.length
  · rw [show k - e.length = 0 by omega, List.take_zero, List.append_nil,
      htrunc k hc, bind_error_eq]
  · rw [List.take_of_length_le (by omega), hsucc, bind_ok_eq]
    exact hcont (by omega)

/-- C6: a buffer truncated anywhere before the end of the header — so that
some decode step in the pipeline finds fewer bytes than it requires —
makes header decoding fail with `UnexpectedEndOfInput`; no record
(partial, zero-filled or otherwise) is returned, the first failing step
aborting the whole decode. -/
theorem replay_parser_truncated (r : Replay) (h : WFReplay r) :
    ∀ k, k < (encHeader r).length →
      replayParser ((encHeader r).take k) = .error ParseErr.unexpectedEndOfInput := by
  obtain ⟨hv, h300, h100, h50, hgeki, hkatu, hmiss, hscore, hcombo, hperf, hmods,
    hts1, hts2, hid1, hid2, hbm, hbml, hpn, hpnl, hrm, hrml, hlb, hlbl, hcd⟩ := h
  intro k hk
  simp only [encHeader, List.append_assoc] at hk ⊢
  simp only [replayParser]
  refine trunc_step (game_mode_enc r.game_mode) (game_mode_trunc r.game_mode)
    fun hle1 => ?_
  refine trunc_step (integer_enc hv) (integer_trunc r.version) fun hle2 => ?_
  refine trunc_step (osr_string_enc _ hbm hbml) (osr_string_trunc _ hbml)
    fun hle3 => ?_
  refine trunc_step (osr_string_enc _ hpn hpnl) (osr_string_trunc _ hpnl)
    fun hle4 => ?_
  refine trunc_step (osr_string_enc _ hrm hrml) (osr_string_trunc _ hrml)
    fun hle5 => ?_
  refine trunc_step (short_enc h300) (short_trunc r.n300) fun hle6 => ?_
  refine trunc_step (short_enc h100) (short_trunc r.n100) fun hle7 => ?_
  refine trunc_step (short_enc h50) (short_trunc r.n50) fun hle8 => ?_
  refine trunc_step (short_enc hgeki) (short_trunc r.n_geki) fun hle9 => ?_
  refine trunc_step (short_enc hkatu) (short_trunc r.n_katu) fun hle10 => ?_
  refine trunc_step (short_enc hmiss) (short_trunc r.n_miss) fun hle11 => ?_
  refine trunc_step (integer_enc hscore) (integer_trunc r.total_score)
    fun hle12 => ?_
  refine trunc_step (short_enc hcombo) (short_trunc r.greatest_combo)
    fun hle13 => ?_
  refine trunc_step (byte_enc_list r.perfect) (byte_trunc r.perfect)
    fun hle14 => ?_
  refine trunc_step (integer_enc hmods) (integer_trunc r.mods) fun hle15 => ?_
  refine trunc_step (osr_string_enc _ hlb hlbl) (osr_string_trunc _ hlbl)
    fun hle16 => ?_
  refine trunc_step (le_i64_enc hts1 hts2) (le_i64_trunc r.time_stamp)
    fun hle17 => ?_
  refine trunc_step (integer_enc hcd) (integer_trunc r.compressed_data.length)
    fun hle18 => ?_
  refine trunc_step (take_enc r.compressed_data) (take_trunc r.compressed_data)
    fun hle19 => ?_
  rw [le_i64_trunc r.online_score_id _ ?_, bind_error_eq]
  simp only [List.length_append, encGameMode_length, encU16_length, encU32_length,
    encI64_length, List.length_cons, List.length_nil] at *
  omega

/-- Witness for C6: the `sampleReplay` buffer cut one byte short. -/
theorem replay_parser_truncated_witness :
    replayParser ((encHeader sampleReplay).take ((encHeader sampleReplay).length - 1))
      = .error ParseErr.unexpectedEndOfInput :=
  replay_parser_truncated sampleReplay (by decide) _
    (Nat.sub_lt
      (by simp only [encHeader, List.length_append, encGameMode_length]; omega)
      one_pos)

/-! ### Action-stream split lemmas -/

theorem splitOnChar_ne_nil (c : Char) (l : List Char) : splitOnChar c l ≠ [] := by
  match l with
  | [] => simp [splitOnChar]
  | x :: r =>
    simp only [splitOnChar]
    by_cases h : x = c
    · simp [h]
    · simp only [if_neg h]
      split <;> simp

theorem splitOnChar_cons_sep (c : Char) (a r : List Char) (ha : c ∉ a) :
    splitOnChar c (a ++ c :: r) = a :: splitOnChar c r := by
  induction a with
  | nil => simp [splitOnChar]
  | cons x a' ih =>
      have hx : ¬ x = c := fun h => ha (h ▸ List.mem_cons_self x a')
      have ha' : c ∉ a' := fun h => ha (List.mem_cons_of_mem _ h)
      simp only [List.cons_append, splitOnChar, List.append_eq, if_neg hx, ih ha']

theorem splitOnChar_no_sep (c : Char) (a : List Char) (ha : c ∉ a) :
    splitOnChar c a = [a] := by
  induction a with
  | nil => rfl
  | cons x a' ih =>
      have hx : ¬ x = c := fun h => ha (h ▸ List.mem_cons_self x a')
      have ha' : c ∉ a' := fun h => ha (List.mem_cons_of_mem _ h)
      simp only [splitOnChar, if_neg hx, ih ha']

theorem comma_not_mem_renderSeg {p : Tok4 × ReplayData} (h : GoodPair p) :
    ',' ∉ renderSeg p.1 := by
  obtain ⟨⟨_, h1⟩, ⟨_, h2⟩, ⟨_, h3⟩, ⟨_, h4⟩, _⟩ := h
  simp only [renderSeg, List.mem_append, List.mem_cons]
  intro hmem
  rcases hmem with hm | hm | hm | hm | hm | hm | hm
  · exact h1 hm
  · simp at hm
  · exact h2 hm
  · simp at hm
  · exact h3 hm
  · simp at hm
  · exact h4 hm

theorem splitOnChar_render (segs : List (List Char)) (h : ∀ s ∈ segs, ',' ∉ s)
    (x : List Char) :
    splitOnChar ',' ((segs.map (· ++ [','])).flatten ++ x)
      = segs ++ splitOnChar ',' x := by
  induction segs with
  | nil => simp
  | cons s rest ih =>
      have hs : ',' ∉ s := h s (by simp)
      have hrest : ∀ q ∈ rest, ',' ∉ q := fun q hq => h q (by simp [hq])
      simp only [List.map_cons, List.flatten_cons, List.append_assoc,
        List.singleton_append, List.cons_append, List.nil_append]
      rw [splitOnChar_cons_sep ',' s _ hs, ih hrest]

theorem splitTerminator_render (segs : List (List Char)) (h : ∀ s ∈ segs, ',' ∉ s) :
    splitTerminator ',' (renderText segs) = segs := by
  have hsplit : splitOnChar ',' (renderText segs) = segs ++ [[]] := by
    have hx := splitOnChar_render segs h []
    simpa [renderText, splitOnChar] using hx
  simp only [splitTerminator, hsplit, List.getLast?_concat, List.dropLast_concat]
  simp

theorem splitTerminator_render_append (segs : List (List Char))
    (h : ∀ s ∈ segs, ',' ∉ s) (bad suffix : List Char) (hbad : ',' ∉ bad) :
    ∃ C, splitTerminator ',' (renderText segs ++ (bad ++ ',' :: suffix))
      = segs ++ bad :: C := by
  have hsplit := splitOnChar_render segs h (bad ++ ',' :: suffix)
  rw [splitOnChar_cons_sep ',' bad suffix hbad] at hsplit
  have hSne : splitOnChar ',' suffix ≠ [] := splitOnChar_ne_nil ',' suffix
  by_cases hlast : (segs ++ bad :: splitOnChar ',' suffix).getLast? = some []
  · refine ⟨(splitOnChar ',' suffix).dropLast, ?_⟩
    simp only [splitTerminator, renderText] at hsplit ⊢
    rw [hsplit, if_pos hlast,
      List.dropLast_append_of_ne_nil _ (by simp),
      List.dropLast_cons_of_ne_nil hSne]
  · refine ⟨splitOnChar ',' suffix, ?_⟩
    simp only [splitTerminator, renderText] at hsplit ⊢
    rw [hsplit, if_neg hlast]

/-- A well-formed four-token segment parses to the frame built from its
four parsed sub-fields. -/
theorem parseActionRecord_render {t x y k : List Char}
    (ht : '|' ∉ t) (hx : '|' ∉ x) (hy : '|' ∉ y) (hk : '|' ∉ k)
    {time : Int} {xv yv : List Char} {keys : Nat}
    (hpt : parseI64 t = .ok time) (hpx : parseF32 x = .ok xv)
    (hpy : parseF32 y = .ok yv) (hpk : parseU32 k = .ok keys) :
    parseActionRecord (t ++ '|' :: (x ++ '|' :: (y ++ '|' :: k)))
      = .ok ⟨time, xv, yv, keys⟩ := by
  have hsplit : splitOnChar '|' (t ++ '|' :: (x ++ '|' :: (y ++ '|' :: k)))
      = [t, x, y, k] := by
    rw [splitOnChar_cons_sep _ _ _ ht, splitOnChar_cons_sep _ _ _ hx,
      splitOnChar_cons_sep _ _ _ hy, splitOnChar_no_sep _ _ hk]
  simp [parseActionRecord, hsplit, nextSplit, hpt, hpx, hpy, hpk,
    bind_ok_eq, pure_eq_ok]

/-- Every successfully rendered `GoodPair` record parses to its frame. -/
theorem parseActionRecord_goodPair {p : Tok4 × ReplayData} (h : GoodPair p) :
    parseActionRecord (renderSeg p.1) = .ok p.2 := by
  obtain ⟨⟨h1, _⟩, ⟨h2, _⟩, ⟨h3, _⟩, ⟨h4, _⟩, hpt, hpx, hpy, hpk⟩ := h
  rw [renderSeg, parseActionRecord_render h1 h2 h3 h4 hpt hpx hpy hpk]

theorem mapM_parse_ok (pairs : List (Tok4 × ReplayData))
    (h : ∀ p ∈ pairs, GoodPair p) :
    ((pairs.map Prod.fst).map renderSeg).mapM parseActionRecord
      = .ok (pairs.map Prod.snd) := by
  induction pairs with
  | nil => rfl
  | cons p rest ih =>
      simp only [List.map_cons, List.mapM_cons,
        parseActionRecord_goodPair (h p (by simp)), bind_ok_eq,
        ih (fun q hq => h q (by simp [hq])), pure_eq_ok]

theorem mapM_parse_error (goods : List (List Char))
    (h : ∀ s ∈ goods, ∃ v, parseActionRecord s = .ok v)
    (bad : List Char) (e : ReplayDataError)
    (hbad : parseActionRecord bad = .error e) (C : List (List Char)) :
    (goods ++ bad :: C).mapM parseActionRecord = .error e := by
  induction goods with
  | nil => simp only [List.nil_append, List.mapM_cons, hbad, bind_error_eq]
  | cons s rest ih =>
      obtain ⟨v, hv⟩ := h s (by simp)
      simp only [List.cons_append, List.mapM_cons, hv, bind_ok_eq]
      rw [ih (fun q hq => h q (by simp [hq]))]
      rfl

/-- C7: action-stream decoding splits the decompressed text on `','`
(ignoring the trailing empty segment after the terminal comma), splits
each segment on `'|'`, parses the four sub-fields as `i64`, `f32`, `f32`,
`u32`, and returns the frames in exactly the order the segments appear. -/
theorem get_actions_records_spec (pairs : List (Tok4 × ReplayData))
    (h : ∀ p ∈ pairs, GoodPair p) :
    actions_of_text (renderText ((pairs.map Prod.fst).map renderSeg))
      = .ok (pairs.map Prod.snd) := by
  have hsep : ∀ s ∈ (pairs.map Prod.fst).map renderSeg, ',' ∉ s := by
    intro s hs
    rw [List.map_map, List.mem_map] at hs
    obtain ⟨p, hp, rfl⟩ := hs
    exact comma_not_mem_renderSeg (h p hp)
  rw [actions_of_text, splitTerminator_render _ hsep]
  exact mapM_parse_ok pairs h

/-- Witness for C7: the two-record example text. -/
theorem get_actions_records_witness :
    actions_of_text (renderText ((samplePairs.map Prod.fst).map renderSeg))
      = .ok (samplePairs.map Prod.snd) :=
  get_actions_records_spec samplePairs (by decide)

/-- C8: each numeric sub-field parser only ever fails with the
`InvalidValueError` the `From<ParseIntError>`/`From<ParseFloatError>`
impls produce; a record segment with only three pipe-delimited sub-fields
(all parseable) fails with `MissingField`; and a stream whose first bad
record fails with `e` makes the whole decode return exactly `e` and no
frames. -/
theorem get_actions_error_spec :
    (∀ s e, parseI64 s = .error e → e = ReplayDataError.invalidValueError) ∧
    (∀ s e, parseF32 s = .error e → e = ReplayDataError.invalidValueError) ∧
    (∀ s e, parseU32 s = .error e → e = ReplayDataError.invalidValueError) ∧
    (∀ t x y : List Char, ∀ time : Int, ∀ xv yv : List Char,
      '|' ∉ t → '|' ∉ x → '|' ∉ y →
      parseI64 t = .ok time → parseF32 x = .ok xv → parseF32 y = .ok yv →
      parseActionRecord (t ++ '|' :: (x ++ '|' :: y))
        = .error ReplayDataError.missingValueError) ∧
    (∀ (good : List (Tok4 × ReplayData)) (bad suffix : List Char)
        (e : ReplayDataError),
      (∀ p ∈ good, GoodPair p) → ',' ∉ bad → parseActionRecord bad = .error e →
      actions_of_text (renderText ((good.map Prod.fst).map renderSeg)
        ++ (bad ++ ',' :: suffix)) = .error e) := by
  refine ⟨?_, ?_, ?_, ?_, ?_⟩
  · intro s e h
    unfold parseI64 at h
    split at h
    · exact (Except.error.inj h).symm
    · split at h
      all_goals dsimp only at h
      all_goals split at h
      all_goals
        first
          | exact (Except.error.inj h).symm
          | (simp at h; try exact h.symm)
  · intro s e h
    unfold parseF32 at h
    split at h
    · simp at h
    · exact (Except.error.inj h).symm
  · intro s e h
    unfold parseU32 at h
    split at h
    · exact (Except.error.inj h).symm
    · split at h
      · simp at h
      · exact (Except.error.inj h).symm
  · intro t x y time xv yv ht hx hy hpt hpx hpy
    have hsplit : splitOnChar '|' (t ++ '|' :: (x ++ '|' :: y)) = [t, x, y] := by
      rw [splitOnChar_cons_sep _ _ _ ht, splitOnChar_cons_sep _ _ _ hx,
        splitOnChar_no_sep _ _ hy]
    simp [parseActionRecord, hsplit, nextSplit, hpt, hpx, hpy,
      bind_ok_eq, bind_error_eq]
  · intro good bad suffix e hgood hbad hbade
    have hsep : ∀ s ∈ (good.map Prod.fst).map renderSeg, ',' ∉ s := by
      intro s hs
      rw [List.map_map, List.mem_map] at hs
      obtain ⟨p, hp, rfl⟩ := hs
      exact comma_not_mem_renderSeg (hgood p hp)
    obtain ⟨C, hC⟩ := splitTerminator_render_append _ hsep bad suffix hbad
    rw [actions_of_text, hC]
    refine mapM_parse_error _ ?_ bad e hbade C
    intro s hs
    rw [List.map_map, List.mem_map] at hs
    obtain ⟨p, hp, rfl⟩ := hs
    exact ⟨p.2, parseActionRecord_goodPair (hgood p hp)⟩

/-- Witness for C8: the three-field segment `"1|2|3"` and the
single-record stream `"9,"` whose record stops after one sub-field. -/
theorem get_actions_error_witness :
    parseActionRecord (['1'] ++ '|' :: (['2'] ++ '|' :: ['3']))
      = .error ReplayDataError.missingValueError ∧
    actions_of_text (renderText ((([] : List (Tok4 × ReplayData)).map
        Prod.fst).map renderSeg) ++ (['9'] ++ ',' :: []))
      = .error ReplayDataError.missingValueError :=
  ⟨get_actions_error_spec.2.2.2.1 ['1'] ['2'] ['3'] 1 ['2'] ['3']
      (by decide) (by decide) (by decide) (by decide) (by decide) (by decide),
   get_actions_error_spec.2.2.2.2 [] ['9'] [] ReplayDataError.missingValueError
      (by decide) (by decide) (by decide)⟩

/-- C10: a record segment with more than four pipe-delimited sub-fields
decodes successfully from its first four sub-fields, silently ignoring
everything after the fourth. -/
theorem parseActionRecord_extra_spec (t x y k extra : List Char)
    (ht : '|' ∉ t) (hx : '|' ∉ x) (hy : '|' ∉ y) (hk : '|' ∉ k)
    (time : Int) (xv yv : List Char) (keys : Nat)
    (hpt : parseI64 t = .ok time) (hpx : parseF32 x = .ok xv)
    (hpy : parseF32 y = .ok yv) (hpk : parseU32 k = .ok keys) :
    parseActionRecord (t ++ '|' :: (x ++ '|' :: (y ++ '|' :: (k ++ '|' :: extra))))
      = .ok ⟨time, xv, yv, keys⟩ := by
  have hsplit : splitOnChar '|' (t ++ '|' :: (x ++ '|' :: (y ++ '|' :: (k ++ '|' :: extra))))
      = t :: x :: y :: k :: splitOnChar '|' extra := by
    rw [splitOnChar_cons_sep _ _ _ ht, splitOnChar_cons_sep _ _ _ hx,
      splitOnChar_cons_sep _ _ _ hy, splitOnChar_cons_sep _ _ _ hk]
  simp [parseActionRecord, hsplit, nextSplit, hpt, hpx, hpy, hpk,
    bind_ok_eq, pure_eq_ok]

/-- Witness for C10: a record with two extra sub-fields, one containing a
further pipe. -/
theorem parseActionRecord_extra_witness :
    parseActionRecord (['7'] ++ '|' :: (['1'] ++ '|' :: (['2'] ++ '|' ::
        (['3'] ++ '|' :: ['z', '|', 'w']))))
      = .ok ⟨7, ['1'], ['2'], 3⟩ :=
  parseActionRecord_extra_spec ['7'] ['1'] ['2'] ['3'] ['z', '|', 'w']
    (by decide) (by decide) (by decide) (by decide) 7 ['1'] ['2'] 3
    (by decide) (by decide) (by decide) (by decide)

/-- C9: action-stream decoding is computed solely from the stored
compressed blob — two records with the same blob give the same result
under any codec — and, the embedding being purely functional over an
immutable record, no invocation (successful or failing) modifies the
record or earlier results. -/
theorem get_actions_pure (lzma : List Nat → Except ReplayDataError (List Nat))
    (r1 r2 : Replay) (h : r1.compressed_data = r2.compressed_data) :
    get_actions lzma r1 = get_actions lzma r2 := by
  simp only [get_actions, decompress_lzma, h]

/-- Witness for C9: `sampleReplay` against a copy with a different
version field, under the identity codec. -/
theorem get_actions_pure_witness :
    get_actions (fun bs => .ok bs) sampleReplay
      = get_actions (fun bs => .ok bs) { sampleReplay with version := 0 } :=
  get_actions_pure (fun bs => .ok bs) sampleReplay
    { sampleReplay with version := 0 } rfl
